import Mathlib

/-!
Shallow embedding of src/edward/inferences/metropolis_hastings.py.

The file models the MetropolisHastings transition kernel of the edward
repository: construction of the substitution map dict_swap, the forward and
reverse proposal passes, the target density terms in structured mode and in
model wrapper mode, the accept or reject branch, and the update of the
empirical sample stores together with the accept counter.

Python dictionaries are modelled as association lists in their stable
iteration order; a dictionary that is only ever used as a substitution
environment is modelled as a function from node ids to optional values, and
a failing dictionary access (a KeyError in the source) is modelled by none.
Randomness is modelled by an explicit stream of raw draws indexed by a
counter that every call of value or sample advances by one.  TensorFlow
tensors matter to the kernel only through the storage resolution of line
142 of the source, so they are modelled by a small tensor tree recording op
inputs and names.
-/

namespace EdwardMH

/-- Scalar tensor values.  Multi dimensional log densities are modelled by
the list a log_prob returns, which tf.reduce_sum reduces. -/
abbrev V := Int

/-- Identity of a node of the probabilistic expression graph. -/
abbrev Node := Nat

/-- A RandomVariable node.  The field sample models the value of a copy of
the node conditioned on a substitution environment (copy followed by value
in the source), fed with one raw random draw; logProb models log_prob of
such a conditioned copy at a given value, as the possibly multi dimensional
list of log densities that tf.reduce_sum later reduces to a scalar. -/
structure RV where
  id : Node
  sample : (Node → Option V) → V → V
  logProb : (Node → Option V) → V → List V

/-- A TensorFlow tensor, as far as the storage resolution of build_update
needs it: a variable snapshot (the tensor directly backed by a mutable
variable, whose op has no inputs) or an op with zero or one input. -/
inductive Tensor where
  | varSnapshot : Node → Tensor
  | op0 : Node → Tensor
  | op1 : Node → Tensor → Tensor
deriving DecidableEq

/-- The name of a tensor (x.name in the source). -/
def tname : Tensor → Node
  | Tensor.varSnapshot n => n
  | Tensor.op0 n => n
  | Tensor.op1 n _ => n

/-- The inputs of the op of a tensor (t.op.inputs in the source). -/
def opInputs : Tensor → List Tensor
  | Tensor.varSnapshot _ => []
  | Tensor.op0 _ => []
  | Tensor.op1 _ t => [t]

/-- All root mutable variables a tensor is derived from, however many
levels of indirection lie in between. -/
def rootVars : Tensor → List Node
  | Tensor.varSnapshot n => [n]
  | Tensor.op0 _ => []
  | Tensor.op1 _ t => rootVars t

/-- An Empirical random variable qz: the contents of its params buffer and
the graph tensor qz.params that the storage resolution walks. -/
structure Empirical where
  params : List V
  handle : Tensor

/-- A key of the data dictionary: a RandomVariable, or a plain tensor such
as a placeholder, which the isinstance check of source line 73 rejects. -/
inductive DataKey where
  | rv : RV → DataKey
  | tensor : Node → DataKey

/-- A value of the data dictionary: a RandomVariable (pseudo marginal
conditioning) or a concrete observed value. -/
inductive DataVal where
  | rv : RV → DataVal
  | val : V → DataVal

/-- An opaque model wrapper exposing log_prob(xs, zs) (model oracle). -/
structure ModelWrapper where
  logProb : List (DataKey × DataVal) → List (Node × V) → V

/-- The fields of a MetropolisHastings object after construction. -/
structure MetropolisHastings where
  latent_vars : List (RV × Empirical)
  proposal_vars : List (RV × RV)
  data : List (DataKey × DataVal)
  model_wrapper : Option ModelWrapper

/-- MetropolisHastings.__init__, source lines 32 to 56: it stores
proposal_vars and forwards latent_vars, data and model_wrapper to the
parent constructor.  It performs no validation of the key sets. -/
def MetropolisHastings.init (latent_vars : List (RV × Empirical))
    (proposal_vars : List (RV × RV)) (data : List (DataKey × DataVal))
    (model_wrapper : Option ModelWrapper) : MetropolisHastings :=
  { latent_vars := latent_vars, proposal_vars := proposal_vars,
    data := data, model_wrapper := model_wrapper }

/-- Python dict lookup on an association list; none models a KeyError. -/
def lookupV {α : Type} (k : Node) : List (Node × α) → Option α
  | [] => none
  | (a, v) :: rest => if a = k then some v else lookupV k rest

/-- Total lookup with default 0, used only where the key is present. -/
def lookupD (d : List (Node × V)) (k : Node) : V := (lookupV k d).getD 0

/-- A dict used as a substitution environment. -/
def envOf (d : List (Node × V)) : Node → Option V := fun n => lookupV n d

/-- dict.copy() followed by dict.update(d): the entries of d win. -/
def override (base : Node → Option V) (d : List (Node × V)) :
    Node → Option V :=
  fun n =>
    match lookupV n d with
    | some v => some v
    | none => base n

/-- The empty substitution environment (a copy with no swap dict). -/
def emptyEnv : Node → Option V := fun _ => none

/-- tf.gather of one index on the params buffer. -/
def gather (params : List V) (i : Int) : V := params.getD i.toNat 0

/-- The read index tf.maximum(self.t - 1, 0) of source line 66. -/
def readIndex (t : Int) : Int := max (t - 1) 0

/-- old_sample, source lines 66 to 67: one gather per latent variable, in
the iteration order of latent_vars. -/
def oldSampleOf (latent_vars : List (RV × Empirical)) (t : Int) :
    List (Node × V) :=
  latent_vars.map (fun p => (p.1.id, gather p.2.params (readIndex t)))

/-- The ids of the RandomVariable keys of the data dict, in order. -/
def swapIds : List (DataKey × DataVal) → List Node
  | [] => []
  | (DataKey.rv x, _) :: rest => x.id :: swapIds rest
  | (DataKey.tensor _, _) :: rest => swapIds rest

/-- How many entries of the data dict pair a RandomVariable key with a
RandomVariable value, hence consume one auxiliary draw each. -/
def countAux : List (DataKey × DataVal) → Nat
  | [] => 0
  | (DataKey.rv _, DataVal.rv _) :: rest => countAux rest + 1
  | _ :: rest => countAux rest

/-- dict_swap construction, source lines 71 to 78: a RandomVariable key
mapped to a RandomVariable gets the value of one fresh unconditioned copy
of that variable (one auxiliary draw); a RandomVariable key mapped to a
concrete value gets that value; a key that is not a RandomVariable is
skipped.  The second component is the rng counter after construction. -/
def buildDictSwap (data : List (DataKey × DataVal)) (rng : Nat → V)
    (i : Nat) : List (Node × V) × Nat :=
  match data with
  | [] => ([], i)
  | (DataKey.rv x, DataVal.rv qx) :: rest =>
    let v := qx.sample emptyEnv (rng i)
    let r := buildDictSwap rest rng (i + 1)
    ((x.id, v) :: r.1, r.2)
  | (DataKey.rv x, DataVal.val c) :: rest =>
    let r := buildDictSwap rest rng i
    ((x.id, c) :: r.1, r.2)
  | (DataKey.tensor _, _) :: rest => buildDictSwap rest rng i

/-- The forward proposal pass, source lines 84 to 92: for every proposal
template, build the copy conditioned on dict_swap_old, draw the new sample
as its value, and add its summed log density at that new sample.  Returns
new_sample, the accumulated contribution, and the rng counter. -/
def forwardPass (pv : List (RV × RV)) (envOld : Node → Option V)
    (rng : Nat → V) (i : Nat) : List (Node × V) × V × Nat :=
  match pv with
  | [] => ([], 0, i)
  | (z, g) :: rest =>
    let v := g.sample envOld (rng i)
    let r := forwardPass rest envOld rng (i + 1)
    ((z.id, v) :: r.1, (g.logProb envOld v).sum + r.2.1, r.2.2)

/-- The reverse proposal pass, source lines 97 to 101: for every proposal
template, build the copy conditioned on dict_swap_new and take its summed
log density at dict_swap_old[z].  Returns the sum of the terms the ratio
subtracts, or none on a KeyError. -/
def reversePass (pv : List (RV × RV)) (envNew envOld : Node → Option V) :
    Option V :=
  match pv with
  | [] => some 0
  | (z, g) :: rest =>
    match envOld z.id with
    | none => none
    | some vOld =>
      match reversePass rest envNew envOld with
      | none => none
      | some r => some ((g.logProb envNew vOld).sum + r)

/-- The prior terms of structured mode, source lines 104 to 110: copies of
each prior conditioned on dict_swap_new and dict_swap_old, evaluated at
dict_swap_new[z] and dict_swap_old[z] respectively. -/
def priorPass (lv : List (RV × Empirical)) (envNew envOld : Node → Option V) :
    Option V :=
  match lv with
  | [] => some 0
  | (z, _) :: rest =>
    match envNew z.id, envOld z.id with
    | some vNew, some vOld =>
      match priorPass rest envNew envOld with
      | none => none
      | some r =>
        some ((z.logProb envNew vNew).sum - (z.logProb envOld vOld).sum + r)
    | _, _ => none

/-- The likelihood terms of structured mode, source lines 112 to 119: only
RandomVariable keys contribute, and both the new and the old term are
evaluated at the fixed observed value dict_swap[x]. -/
def likelihoodPass (data : List (DataKey × DataVal))
    (dict_swap : List (Node × V)) (envNew envOld : Node → Option V) :
    Option V :=
  match data with
  | [] => some 0
  | (DataKey.rv x, _) :: rest =>
    match lookupV x.id dict_swap with
    | none => none
    | some vx =>
      match likelihoodPass rest dict_swap envNew envOld with
      | none => none
      | some r =>
        some ((x.logProb envNew vx).sum - (x.logProb envOld vx).sum + r)
  | (DataKey.tensor _, _) :: rest =>
    likelihoodPass rest dict_swap envNew envOld

/-- The target density contribution, source lines 103 to 123: structured
prior plus likelihood terms when there is no model wrapper, otherwise the
wrapper called on the original data dict with the new_sample and the
old_sample dicts. -/
def targetTerm (mh : MetropolisHastings)
    (dict_swap old_sample new_sample : List (Node × V))
    (envNew envOld : Node → Option V) : Option V :=
  match mh.model_wrapper with
  | none =>
    match priorPass mh.latent_vars envNew envOld with
    | none => none
    | some p =>
      match likelihoodPass mh.data dict_swap envNew envOld with
      | none => none
      | some l => some (p + l)
  | some mw =>
    some (mw.logProb mh.data new_sample - mw.logProb mh.data old_sample)

/-- The randomness one invocation consumes: a stream of raw draws and the
log function applied to the uniform draw in tf.log(u) of line 127. -/
structure RandomSource where
  rng : Nat → V
  logFn : V → V

/-- The intermediate quantities of one build_update invocation, up to and
including the accept decision. -/
structure StepTrace where
  old_sample : List (Node × V)
  dict_swap : List (Node × V)
  new_sample : List (Node × V)
  fwdSum : V
  revSum : V
  tgtSum : V
  ratio : V
  accept : Bool
deriving DecidableEq

/-- build_update, source lines 58 to 127, up to the accept decision: the
old sample reads, dict_swap, the forward pass, the reverse pass, the target
terms, the ratio accumulated in the source order fwd minus rev plus target,
and the comparison tf.log(u) < ratio. -/
def buildTrace (mh : MetropolisHastings) (rs : RandomSource) (t : Int) :
    Option StepTrace :=
  let old_sample := oldSampleOf mh.latent_vars t
  let ds := buildDictSwap mh.data rs.rng 0
  let envOld := override (envOf ds.1) old_sample
  let fp := forwardPass mh.proposal_vars envOld rs.rng ds.2
  let envNew := override (envOf ds.1) fp.1
  match reversePass mh.proposal_vars envNew envOld with
  | none => none
  | some rev =>
    match targetTerm mh ds.1 old_sample fp.1 envNew envOld with
    | none => none
    | some tgt =>
      let ratio := fp.2.1 - rev + tgt
      some { old_sample := old_sample, dict_swap := ds.1, new_sample := fp.1,
             fwdSum := fp.2.1, revSum := rev, tgtSum := tgt, ratio := ratio,
             accept := decide (rs.logFn (rs.rng fp.2.2) < ratio) }

/-- The dict_swap_old environment of a trace. -/
def envOldOf (tr : StepTrace) : Node → Option V :=
  override (envOf tr.dict_swap) tr.old_sample

/-- The dict_swap_new environment of a trace. -/
def envNewOf (tr : StepTrace) : Node → Option V :=
  override (envOf tr.dict_swap) tr.new_sample

/-- The result of tf.cond: a bare tensor when the branch lists have size
one, otherwise the list of selected tensors. -/
inductive CondResult where
  | single : V → CondResult
  | multi : List V → CondResult
deriving DecidableEq

/-- tf.cond over the two lists of sample values, source lines 128 to 129. -/
def tfCond (accept : Bool) (ns os : List V) : CondResult :=
  match (if accept then ns else os) with
  | [v] => CondResult.single v
  | vs => CondResult.multi vs

/-- The normalisation of source lines 130 to 132: a bare tensor becomes a
one element list, a list is kept. -/
def toListNormalize : CondResult → List V
  | CondResult.single v => [v]
  | CondResult.multi vs => vs

/-- The committed sample dict of source lines 134 to 135: the keys of
new_sample zipped with the selected values. -/
def sampleDict (keys : List Node) (vals : List V) : List (Node × V) :=
  List.zip keys vals

/-- The whole committed sample dict of a trace, source lines 126 to 135. -/
def committedSample (tr : StepTrace) : List (Node × V) :=
  sampleDict (tr.new_sample.map Prod.fst)
    (toListNormalize (tfCond tr.accept (tr.new_sample.map Prod.snd)
      (tr.old_sample.map Prod.snd)))

/-- The walk qz.params.op.inputs[0].op.inputs[0].name of source line 142:
a fixed two level descent through the op inputs; none models the IndexError
of a missing input. -/
def resolveRoot (handle : Tensor) : Option Node :=
  match (opInputs handle).head? with
  | none => none
  | some t1 =>
    match (opInputs t1).head? with
    | none => none
    | some t2 => some (tname t2)

/-- The resolved variable name provided it names a variable of the
collection: the dict access variables[name] of source lines 139 to 142,
whose failure is a KeyError. -/
def resolveVariable (handle : Tensor) (vars : List (Node × List V)) :
    Option Node :=
  match resolveRoot handle with
  | none => none
  | some name =>
    match lookupV name vars with
    | none => none
    | some _ => some name

/-- tf.scatter_update of one value at index t, source line 143. -/
def scatterUpdate (buf : List V) (t : Int) (v : V) : List V :=
  buf.set t.toNat v

/-- Assignment of a new buffer to the variable called name. -/
def updateVar (vars : List (Node × List V)) (name : Node) (buf : List V) :
    List (Node × List V) :=
  match vars with
  | [] => []
  | (a, b) :: rest =>
    if a = name then (a, buf) :: updateVar rest name buf
    else (a, b) :: updateVar rest name buf

/-- The store writes of source lines 138 to 143: for every latent variable,
resolve the root variable of its Empirical store and scatter the committed
sample value at index t.  Any failure makes the whole step fail with no
write observed, because the update op is never returned. -/
def applyWrites (lv : List (RV × Empirical)) (sample : List (Node × V))
    (vars : List (Node × List V)) (t : Int) :
    Option (List (Node × List V)) :=
  match lv with
  | [] => some vars
  | (z, qz) :: rest =>
    match resolveRoot qz.handle with
    | none => none
    | some name =>
      match lookupV name vars with
      | none => none
      | some buf =>
        match lookupV z.id sample with
        | none => none
        | some v =>
          applyWrites rest sample (updateVar vars name (scatterUpdate buf t v)) t

/-- The mutable state build_update touches: the collection of graph
variables, the step counter and the accept counter. -/
structure GraphState where
  vars : List (Node × List V)
  t : Int
  n_accept : Nat
deriving DecidableEq

/-- One whole build_update, source lines 58 to 147: the trace up to the
accept decision, then the store writes and the conditional increment of
n_accept by tf.select(accept, 1, 0) of line 146, both applied atomically or
not at all. -/
def buildUpdate (mh : MetropolisHastings) (rs : RandomSource)
    (s : GraphState) : Option GraphState :=
  match buildTrace mh rs s.t with
  | none => none
  | some tr =>
    match applyWrites mh.latent_vars (committedSample tr) s.vars s.t with
    | none => none
    | some vars2 =>
      some { vars := vars2, t := s.t,
             n_accept := s.n_accept + (if tr.accept then 1 else 0) }

/-- Spec side formula: the likelihood terms of spec section 4.2 step 7,
summed over the RandomVariable data keys, each term evaluated at the fixed
observed value dict_swap[x]. -/
def specLikTerms (data : List (DataKey × DataVal))
    (dict_swap : List (Node × V)) (envNew envOld : Node → Option V) : V :=
  match data with
  | [] => 0
  | (DataKey.rv x, _) :: rest =>
    (x.logProb envNew (lookupD dict_swap x.id)).sum
      - (x.logProb envOld (lookupD dict_swap x.id)).sum
      + specLikTerms rest dict_swap envNew envOld
  | (DataKey.tensor _, _) :: rest =>
    specLikTerms rest dict_swap envNew envOld

/-- Spec side formula: the scalar acceptance ratio exactly as spec section
4.2 states it in steps 4, 6 and 7: plus the forward proposal densities at
new_sample[z], minus the reverse proposal densities at old_sample[z], plus
the prior terms at new_sample[z] minus the prior terms at old_sample[z],
plus the likelihood terms at the fixed dict_swap values. -/
def specRatio (mh : MetropolisHastings)
    (dict_swap old_sample new_sample : List (Node × V))
    (envNew envOld : Node → Option V) : V :=
  (mh.proposal_vars.map
    (fun p => (p.2.logProb envOld (lookupD new_sample p.1.id)).sum)).sum
  - (mh.proposal_vars.map
    (fun p => (p.2.logProb envNew (lookupD old_sample p.1.id)).sum)).sum
  + (mh.latent_vars.map
    (fun p => (p.1.logProb envNew (lookupD new_sample p.1.id)).sum
      - (p.1.logProb envOld (lookupD old_sample p.1.id)).sum)).sum
  + specLikTerms mh.data dict_swap envNew envOld

/-! Concrete configurations used to evaluate the development on closed
inputs.  exMH is a structured mode kernel with two latent variables and a
data dict holding one pseudo marginal entry, one concrete entry and one
placeholder entry. -/

/-- Example prior for latent id 0. -/
def exZ0 : RV :=
  { id := 0
  , sample := fun env r => r + (env 5).getD 0
  , logProb := fun env v => [v, (env 5).getD 0] }

/-- Example prior for latent id 1. -/
def exZ1 : RV :=
  { id := 1
  , sample := fun env r => r - (env 0).getD 0
  , logProb := fun env v => [2 * v, (env 0).getD 0] }

/-- Example proposal template for latent 0, conditioned on latent 0. -/
def exG0 : RV :=
  { id := 20
  , sample := fun env r => r + (env 0).getD 0
  , logProb := fun env v => [v - (env 0).getD 0] }

/-- Example proposal template for latent 1, conditioned on both latents. -/
def exG1 : RV :=
  { id := 21
  , sample := fun env r => r + (env 1).getD 0
  , logProb := fun env v => [v - (env 1).getD 0, (env 0).getD 0] }

/-- Example observed RandomVariable with a RandomVariable value. -/
def exX5 : RV :=
  { id := 5
  , sample := fun _ r => r
  , logProb := fun env v => [v - 10 * (env 0).getD 0] }

/-- Example observed RandomVariable with a concrete value. -/
def exX6 : RV :=
  { id := 6
  , sample := fun _ r => r
  , logProb := fun env v => [v - (env 1).getD 0] }

/-- Example auxiliary variable supplying the pseudo marginal draw. -/
def exQX : RV :=
  { id := 50
  , sample := fun _ r => 2 * r
  , logProb := fun _ v => [v] }

/-- Example empirical store for latent 0, directly parameterized by the
variable named 7 through the usual snapshot indirection. -/
def exEmp0 : Empirical :=
  { params := [5, 0, 0]
  , handle := Tensor.op1 100 (Tensor.op1 101 (Tensor.varSnapshot 7)) }

/-- Example empirical store for latent 1, over the variable named 8. -/
def exEmp1 : Empirical :=
  { params := [9, 0, 0]
  , handle := Tensor.op1 102 (Tensor.op1 103 (Tensor.varSnapshot 8)) }

/-- Example data dict. -/
def exData : List (DataKey × DataVal) :=
  [(DataKey.rv exX5, DataVal.rv exQX),
   (DataKey.rv exX6, DataVal.val 2),
   (DataKey.tensor 99, DataVal.val 7)]

/-- Example structured mode kernel. -/
def exMH : MetropolisHastings :=
  MetropolisHastings.init [(exZ0, exEmp0), (exZ1, exEmp1)]
    [(exZ0, exG0), (exZ1, exG1)] exData none

/-- Example randomness: raw draw n + 1 at index n, with a constant stand in
for the log function. -/
def exRS : RandomSource :=
  { rng := fun n => (n : Int) + 1, logFn := fun _ => -100 }

/-- Example graph state holding the two root variables. -/
def exGS : GraphState :=
  { vars := [(7, [0, 0, 0]), (8, [0, 0, 0])], t := 0, n_accept := 0 }

/-- The default trace used only as a getD fallback. -/
def defaultTrace : StepTrace :=
  { old_sample := [], dict_swap := [], new_sample := [], fwdSum := 0,
    revSum := 0, tgtSum := 0, ratio := 0, accept := false }

/-- The trace of one step of the example kernel. -/
def exTr : StepTrace := (buildTrace exMH exRS exGS.t).getD defaultTrace

/-- The state after one step of the example kernel. -/
def exGS2 : GraphState :=
  (buildUpdate exMH exRS exGS).getD { vars := [], t := 0, n_accept := 0 }

/-- A latent prior whose proposal is missing from c4MH below. -/
def exZ9 : RV :=
  { id := 9
  , sample := fun _ r => r
  , logProb := fun _ v => [v] }

/-- A kernel whose latent and proposal key sets disagree: latent key id 0,
proposal key id 9.  MetropolisHastings.init accepts it unchecked. -/
def c4MH : MetropolisHastings :=
  MetropolisHastings.init [(exZ0, exEmp0)] [(exZ9, exG0)] [] none

/-- A params handle with three levels of indirection above the unique root
variable named 7. -/
def c5Handle : Tensor :=
  Tensor.op1 10 (Tensor.op1 11 (Tensor.op1 12 (Tensor.varSnapshot 7)))

/-- An empirical store behind the deep handle. -/
def c5Emp : Empirical := { params := [0], handle := c5Handle }

/-- A kernel whose single store sits behind the deep handle. -/
def c5MH : MetropolisHastings :=
  MetropolisHastings.init [(exZ0, c5Emp)] [(exZ0, exG0)] [] none

/-- Graph state owning the root variable named 7. -/
def c5GS : GraphState := { vars := [(7, [0])], t := 0, n_accept := 0 }

/-- Latent prior of the model wrapper example. -/
def c10Z : RV :=
  { id := 0, sample := fun _ r => r, logProb := fun _ _ => [0] }

/-- Proposal of the model wrapper example: its conditioned copy takes the
substituted value of the observed node 5 as its own value. -/
def c10G : RV :=
  { id := 30, sample := fun env _ => (env 5).getD 0, logProb := fun _ _ => [0] }

/-- Observed RandomVariable of the model wrapper example. -/
def c10X : RV :=
  { id := 5, sample := fun _ r => r, logProb := fun _ _ => [0] }

/-- Auxiliary variable of the model wrapper example: its value is the raw
draw itself. -/
def c10QX : RV :=
  { id := 40, sample := fun _ r => r, logProb := fun _ _ => [0] }

/-- Model wrapper reading the value of latent 0 out of the assignment. -/
def c10MW : ModelWrapper :=
  { logProb := fun _ zs => (lookupV 0 zs).getD 0 }

/-- Empirical store of the model wrapper example. -/
def c10Emp : Empirical :=
  { params := [0]
  , handle := Tensor.op1 100 (Tensor.op1 101 (Tensor.varSnapshot 7)) }

/-- Model wrapper mode kernel with one pseudo marginal data entry. -/
def c10MH : MetropolisHastings :=
  MetropolisHastings.init [(c10Z, c10Emp)] [(c10Z, c10G)]
    [(DataKey.rv c10X, DataVal.rv c10QX)] (some c10MW)

/-- First randomness stream: every raw draw is 1. -/
def c10RS1 : RandomSource := { rng := fun _ => 1, logFn := fun _ => 0 }

/-- Second randomness stream: every raw draw is 2; only the raw draws
differ from c10RS1. -/
def c10RS2 : RandomSource := { rng := fun _ => 2, logFn := fun _ => 0 }

/-- The trace of one step of the model wrapper example under c10RS1. -/
def c10Tr1 : StepTrace := (buildTrace c10MH c10RS1 0).getD defaultTrace

/-! Helper lemmas about lookups and environments. -/

theorem lookupV_eq_none {α : Type} (k : Node) (l : List (Node × α))
    (h : k ∉ l.map Prod.fst) : lookupV k l = none := by
  induction l with
  | nil => rfl
  | cons hd tl ih =>
    obtain ⟨a, v⟩ := hd
    simp only [List.map_cons, List.mem_cons] at h
    push_neg at h
    simp only [lookupV, if_neg (Ne.symm h.1)]
    exact ih h.2

theorem lookupV_isSome {α : Type} (k : Node) (l : List (Node × α))
    (h : k ∈ l.map Prod.fst) : (lookupV k l).isSome := by
  induction l with
  | nil => simp at h
  | cons hd tl ih =>
    obtain ⟨a, v⟩ := hd
    by_cases hk : a = k
    · simp [lookupV, hk]
    · simp only [List.map_cons, List.mem_cons] at h
      rcases h with h | h
      · exact absurd h.symm hk
      · simpa [lookupV, hk] using ih h

theorem lookupV_eq_lookupD (k : Node) (l : List (Node × V))
    (h : (lookupV k l).isSome) : lookupV k l = some (lookupD l k) := by
  unfold lookupD
  cases hl : lookupV k l with
  | none => rw [hl] at h; simp at h
  | some v => simp

theorem lookupV_cons_self {α : Type} (k : Node) (v : α)
    (l : List (Node × α)) : lookupV k ((k, v) :: l) = some v := by
  simp [lookupV]

theorem lookupV_cons_ne {α : Type} (a k : Node) (v : α)
    (l : List (Node × α)) (h : a ≠ k) :
    lookupV k ((a, v) :: l) = lookupV k l := by
  simp [lookupV, if_neg h]

theorem lookupV_append {α : Type} (k : Node) (l1 l2 : List (Node × α))
    (h : k ∉ l1.map Prod.fst) : lookupV k (l1 ++ l2) = lookupV k l2 := by
  induction l1 with
  | nil => rfl
  | cons hd tl ih =>
    obtain ⟨a, v⟩ := hd
    simp only [List.map_cons, List.mem_cons] at h
    push_neg at h
    simp only [List.cons_append, lookupV, if_neg (Ne.symm h.1)]
    exact ih h.2

theorem override_of_mem (base : Node → Option V) (d : List (Node × V))
    (k : Node) (h : (lookupV k d).isSome) : override base d k = lookupV k d := by
  unfold override
  cases hl : lookupV k d with
  | none => rw [hl] at h; simp at h
  | some v => simp

theorem override_of_not_mem (base : Node → Option V) (d : List (Node × V))
    (k : Node) (h : lookupV k d = none) : override base d k = base k := by
  unfold override
  rw [h]

theorem zip_map_fst_snd {α β : Type} (l : List (α × β)) :
    List.zip (l.map Prod.fst) (l.map Prod.snd) = l := by
  induction l with
  | nil => rfl
  | cons hd tl ih => simp [ih]

theorem toListNormalize_tfCond (a : Bool) (ns os : List V) :
    toListNormalize (tfCond a ns os) = if a then ns else os := by
  unfold tfCond
  cases h : (if a then ns else os) with
  | nil => simp [toListNormalize]
  | cons v rest => cases rest <;> simp [toListNormalize]

/-! Helper lemmas about the keys produced by each phase. -/

theorem oldSampleOf_fst (lv : List (RV × Empirical)) (t : Int) :
    (oldSampleOf lv t).map Prod.fst = lv.map (fun p => p.1.id) := by
  simp [oldSampleOf, List.map_map]

theorem lookupV_oldSampleOf (lv : List (RV × Empirical)) (t : Int)
    (p : RV × Empirical) (hnd : (lv.map (fun q => q.1.id)).Nodup)
    (hp : p ∈ lv) :
    lookupV p.1.id (oldSampleOf lv t) = some (gather p.2.params (readIndex t)) := by
  induction lv with
  | nil => simp at hp
  | cons hd tl ih =>
    simp only [List.map_cons, List.nodup_cons] at hnd
    rcases List.mem_cons.mp hp with h | h
    · subst h
      simp [oldSampleOf, lookupV]
    · have hne : hd.1.id ≠ p.1.id := by
        intro hc
        exact hnd.1 (hc ▸ List.mem_map_of_mem (fun q => q.1.id) h)
      simpa [oldSampleOf, lookupV, if_neg hne] using ih hnd.2 h

theorem forwardPass_fst (pv : List (RV × RV)) (env : Node → Option V)
    (rng : Nat → V) (i : Nat) :
    (forwardPass pv env rng i).1.map Prod.fst = pv.map (fun p => p.1.id) := by
  induction pv generalizing i with
  | nil => rfl
  | cons hd tl ih =>
    obtain ⟨z, g⟩ := hd
    simp [forwardPass, ih]

theorem buildDictSwap_fst (data : List (DataKey × DataVal)) (rng : Nat → V)
    (i : Nat) : (buildDictSwap data rng i).1.map Prod.fst = swapIds data := by
  induction data generalizing i with
  | nil => rfl
  | cons hd tl ih =>
    obtain ⟨k, qv⟩ := hd
    cases k with
    | rv x =>
      cases qv with
      | rv qx => simp [buildDictSwap, swapIds, ih]
      | val c => simp [buildDictSwap, swapIds, ih]
    | tensor n => simp [buildDictSwap, swapIds, ih]

theorem buildDictSwap_counter (data : List (DataKey × DataVal))
    (rng : Nat → V) (i : Nat) :
    (buildDictSwap data rng i).2 = i + countAux data := by
  induction data generalizing i with
  | nil => simp [buildDictSwap, countAux]
  | cons hd tl ih =>
    obtain ⟨k, qv⟩ := hd
    cases k with
    | rv x =>
      cases qv with
      | rv qx => simp [buildDictSwap, countAux, ih]; omega
      | val c => simp [buildDictSwap, countAux, ih]
    | tensor n => simp [buildDictSwap, countAux, ih]

theorem buildDictSwap_append (d1 d2 : List (DataKey × DataVal))
    (rng : Nat → V) (i : Nat) :
    (buildDictSwap (d1 ++ d2) rng i).1 =
      (buildDictSwap d1 rng i).1 ++ (buildDictSwap d2 rng (i + countAux d1)).1 := by
  induction d1 generalizing i with
  | nil => simp [buildDictSwap, countAux]
  | cons hd tl ih =>
    obtain ⟨k, qv⟩ := hd
    cases k with
    | rv x =>
      cases qv with
      | rv qx =>
        have harith : i + 1 + countAux tl = i + (countAux tl + 1) := by omega
        simp only [List.cons_append, buildDictSwap, countAux, List.append_eq,
          ih (i + 1), harith]
      | val c => simp [buildDictSwap, countAux, ih]
    | tensor n => simp [buildDictSwap, countAux, ih]

theorem mem_swapIds (data : List (DataKey × DataVal)) (x : RV)
    (qv : DataVal) (h : (DataKey.rv x, qv) ∈ data) : x.id ∈ swapIds data := by
  induction data with
  | nil => simp at h
  | cons hd tl ih =>
    obtain ⟨k, qv2⟩ := hd
    rcases List.mem_cons.mp h with h1 | h1
    · cases h1
      simp [swapIds]
    · cases k with
      | rv y =>
        simp only [swapIds, List.mem_cons]
        exact Or.inr (ih h1)
      | tensor n => simpa [swapIds] using ih h1

/-! Helper lemmas about the value each pass accumulates. -/

theorem forwardPass_ratio (pv : List (RV × RV)) (env : Node → Option V)
    (rng : Nat → V) (i : Nat) (hnd : (pv.map (fun p => p.1.id)).Nodup) :
    (forwardPass pv env rng i).2.1 =
      (pv.map (fun p =>
        (p.2.logProb env (lookupD (forwardPass pv env rng i).1 p.1.id)).sum)).sum := by
  induction pv generalizing i with
  | nil => simp [forwardPass]
  | cons hd tl ih =>
    obtain ⟨z, g⟩ := hd
    simp only [List.map_cons, List.nodup_cons] at hnd
    simp only [forwardPass, List.map_cons, List.sum_cons]
    have hself :
        lookupD ((z.id, g.sample env (rng i)) ::
          (forwardPass tl env rng (i + 1)).1) z.id = g.sample env (rng i) := by
      simp [lookupD, lookupV]
    rw [hself]
    congr 1
    have hmap : tl.map (fun p =>
        (p.2.logProb env (lookupD ((z.id, g.sample env (rng i)) ::
          (forwardPass tl env rng (i + 1)).1) p.1.id)).sum) =
        tl.map (fun p =>
          (p.2.logProb env (lookupD (forwardPass tl env rng (i + 1)).1 p.1.id)).sum) := by
      apply List.map_congr_left
      intro p hp
      have hne : z.id ≠ p.1.id := by
        intro hc
        exact hnd.1 (hc ▸ List.mem_map_of_mem (fun q => q.1.id) hp)
      rw [lookupD, lookupV_cons_ne _ _ _ _ hne, ← lookupD]
    rw [hmap]
    exact ih (i + 1) hnd.2

theorem reversePass_eq (pv : List (RV × RV)) (envNew envOld : Node → Option V)
    (h : ∀ p ∈ pv, (envOld p.1.id).isSome) :
    reversePass pv envNew envOld =
      some ((pv.map (fun p =>
        (p.2.logProb envNew ((envOld p.1.id).getD 0)).sum)).sum) := by
  induction pv with
  | nil => simp [reversePass]
  | cons hd tl ih =>
    obtain ⟨z, g⟩ := hd
    have hz := h (z, g) (List.mem_cons_self _ _)
    cases hzv : envOld z.id with
    | none => rw [hzv] at hz; simp at hz
    | some vOld =>
      have htl := ih (fun p hp => h p (List.mem_cons_of_mem _ hp))
      simp [reversePass, hzv, htl]

theorem reversePass_none (pv : List (RV × RV)) (envNew envOld : Node → Option V)
    (h : ∃ p ∈ pv, envOld p.1.id = none) :
    reversePass pv envNew envOld = none := by
  induction pv with
  | nil => simp at h
  | cons hd tl ih =>
    obtain ⟨z, g⟩ := hd
    obtain ⟨p, hp, hnone⟩ := h
    rcases List.mem_cons.mp hp with h1 | h1
    · subst h1
      simp [reversePass, hnone]
    · cases hzv : envOld z.id with
      | none => simp [reversePass, hzv]
      | some vOld =>
        have htl := ih ⟨p, h1, hnone⟩
        simp [reversePass, hzv, htl]

theorem priorPass_eq (lv : List (RV × Empirical))
    (envNew envOld : Node → Option V)
    (hN : ∀ p ∈ lv, (envNew p.1.id).isSome)
    (hO : ∀ p ∈ lv, (envOld p.1.id).isSome) :
    priorPass lv envNew envOld =
      some ((lv.map (fun p =>
        (p.1.logProb envNew ((envNew p.1.id).getD 0)).sum
          - (p.1.logProb envOld ((envOld p.1.id).getD 0)).sum)).sum) := by
  induction lv with
  | nil => simp [priorPass]
  | cons hd tl ih =>
    obtain ⟨z, qz⟩ := hd
    have hzN := hN (z, qz) (List.mem_cons_self _ _)
    have hzO := hO (z, qz) (List.mem_cons_self _ _)
    cases hvN : envNew z.id with
    | none => rw [hvN] at hzN; simp at hzN
    | some vNew =>
      cases hvO : envOld z.id with
      | none => rw [hvO] at hzO; simp at hzO
      | some vOld =>
        have htl := ih (fun p hp => hN p (List.mem_cons_of_mem _ hp))
          (fun p hp => hO p (List.mem_cons_of_mem _ hp))
        simp [priorPass, hvN, hvO, htl]

theorem likelihoodPass_eq (data : List (DataKey × DataVal))
    (dict_swap : List (Node × V)) (envNew envOld : Node → Option V)
    (h : ∀ x qv, (DataKey.rv x, qv) ∈ data → (lookupV x.id dict_swap).isSome) :
    likelihoodPass data dict_swap envNew envOld =
      some (specLikTerms data dict_swap envNew envOld) := by
  induction data with
  | nil => simp [likelihoodPass, specLikTerms]
  | cons hd tl ih =>
    obtain ⟨k, qv⟩ := hd
    cases k with
    | rv x =>
      have hx := h x qv (List.mem_cons_self _ _)
      cases hv : lookupV x.id dict_swap with
      | none => rw [hv] at hx; simp at hx
      | some vx =>
        have htl := ih (fun y qy hy => h y qy (List.mem_cons_of_mem _ hy))
        have hvd : vx = lookupD dict_swap x.id := by simp [lookupD, hv]
        simp [likelihoodPass, hv, htl, specLikTerms, hvd]
    | tensor n =>
      have htl := ih (fun y qy hy => h y qy (List.mem_cons_of_mem _ hy))
      simp [likelihoodPass, specLikTerms, htl]

/-! Helper lemmas about the write phase. -/

theorem updateVar_lookup_ne (vars : List (Node × List V)) (name k : Node)
    (buf : List V) (h : k ≠ name) :
    lookupV k (updateVar vars name buf) = lookupV k vars := by
  induction vars with
  | nil => rfl
  | cons hd tl ih =>
    obtain ⟨a, b⟩ := hd
    by_cases ha : a = name
    · have hnk : name ≠ k := fun hc => h hc.symm
      simp [updateVar, lookupV, ha, hnk, ih]
    · by_cases hk : a = k
      · simp [updateVar, lookupV, ha, hk, h]
      · simp [updateVar, lookupV, ha, hk, ih]

theorem updateVar_lookup_self (vars : List (Node × List V)) (name : Node)
    (buf : List V) (h : (lookupV name vars).isSome) :
    lookupV name (updateVar vars name buf) = some buf := by
  induction vars with
  | nil => simp [lookupV] at h
  | cons hd tl ih =>
    obtain ⟨a, b⟩ := hd
    by_cases ha : a = name
    · simp [updateVar, lookupV, ha]
    · rw [lookupV_cons_ne _ _ _ _ ha] at h
      simp [updateVar, lookupV, ha, ih h]

theorem updateVar_lookup_isSome (vars : List (Node × List V)) (name k : Node)
    (buf : List V) :
    (lookupV k (updateVar vars name buf)).isSome = (lookupV k vars).isSome := by
  induction vars with
  | nil => rfl
  | cons hd tl ih =>
    obtain ⟨a, b⟩ := hd
    by_cases ha : a = name
    · by_cases hk : a = k
      · have hek : name = k := ha.symm.trans hk
        simp [updateVar, lookupV, ha, hek]
      · have hnk : name ≠ k := fun hc => hk (ha.trans hc)
        simp [updateVar, lookupV, ha, hnk, ih]
    · by_cases hk : a = k
      · have hkn : k ≠ name := fun hc => ha (hk.trans hc)
        simp [updateVar, lookupV, ha, hk, hkn]
      · simp [updateVar, lookupV, ha, hk, ih]

theorem resolveVariable_updateVar (handle : Tensor)
    (vars : List (Node × List V)) (name : Node) (buf : List V)
    (h : resolveVariable handle vars = none) :
    resolveVariable handle (updateVar vars name buf) = none := by
  unfold resolveVariable at h ⊢
  cases hr : resolveRoot handle with
  | none => simp [hr]
  | some n =>
    simp only [hr] at h ⊢
    cases hv : lookupV n vars with
    | some b => simp [hv] at h
    | none =>
      have hiso := updateVar_lookup_isSome vars name n buf
      rw [hv] at hiso
      cases hv2 : lookupV n (updateVar vars name buf) with
      | none => simp [hv2]
      | some b2 => rw [hv2] at hiso; simp at hiso

theorem applyWrites_none (lv : List (RV × Empirical))
    (sample : List (Node × V)) (t : Int) :
    ∀ vars : List (Node × List V),
      (∃ p ∈ lv, resolveVariable p.2.handle vars = none) →
      applyWrites lv sample vars t = none := by
  induction lv with
  | nil => intro vars h; simp at h
  | cons hd tl ih =>
    intro vars h
    obtain ⟨z, qz⟩ := hd
    obtain ⟨p, hp, hnone⟩ := h
    cases hr : resolveRoot qz.handle with
    | none => simp [applyWrites, hr]
    | some name =>
      cases hb : lookupV name vars with
      | none => simp [applyWrites, hr, hb]
      | some buf =>
        cases hs : lookupV z.id sample with
        | none => simp [applyWrites, hr, hb, hs]
        | some v =>
          rcases List.mem_cons.mp hp with h1 | h1
          · subst h1
            simp [resolveVariable, hr, hb] at hnone
          · have htl := ih (updateVar vars name (scatterUpdate buf t v))
              ⟨p, h1, resolveVariable_updateVar _ _ _ _ hnone⟩
            simp [applyWrites, hr, hb, hs, htl]

theorem applyWrites_writes (lv : List (RV × Empirical))
    (sample : List (Node × V)) (t : Int) :
    ∀ vars vars2 : List (Node × List V),
      applyWrites lv sample vars t = some vars2 →
      ∀ k, lookupV k vars2 = lookupV k vars ∨
        ∃ b v, lookupV k vars = some b ∧
          lookupV k vars2 = some (b.set t.toNat v) := by
  induction lv with
  | nil =>
    intro vars vars2 h k
    simp only [applyWrites, Option.some_inj] at h
    subst h
    exact Or.inl rfl
  | cons hd tl ih =>
    intro vars vars2 h k
    obtain ⟨z, qz⟩ := hd
    cases hr : resolveRoot qz.handle with
    | none => simp [applyWrites, hr] at h
    | some name =>
      cases hb : lookupV name vars with
      | none => simp [applyWrites, hr, hb] at h
      | some buf =>
        cases hs : lookupV z.id sample with
        | none => simp [applyWrites, hr, hb, hs] at h
        | some v =>
          simp only [applyWrites, hr, hb, hs] at h
          have hrec := ih (updateVar vars name (scatterUpdate buf t v)) vars2 h k
          by_cases hk : k = name
          · subst hk
            have h1 : lookupV k (updateVar vars k (scatterUpdate buf t v)) =
                some (scatterUpdate buf t v) :=
              updateVar_lookup_self vars k _ (by simp [hb])
            rcases hrec with h2 | ⟨b2, v2, h2, h3⟩
            · right
              exact ⟨buf, v, hb, by rw [h2, h1]; rfl⟩
            · right
              rw [h1] at h2
              have hb2 : b2 = scatterUpdate buf t v := by
                injection h2.symm
              subst hb2
              refine ⟨buf, v2, hb, ?_⟩
              rw [h3]
              simp [scatterUpdate, List.set_set]
          · rw [updateVar_lookup_ne vars name k _ hk] at hrec
            exact hrec

/-! Inversion lemmas for the two main definitions. -/

theorem buildTrace_inversion (mh : MetropolisHastings) (rs : RandomSource)
    (t : Int) (tr : StepTrace) (h : buildTrace mh rs t = some tr) :
    tr.old_sample = oldSampleOf mh.latent_vars t ∧
    tr.dict_swap = (buildDictSwap mh.data rs.rng 0).1 ∧
    tr.new_sample = (forwardPass mh.proposal_vars (envOldOf tr) rs.rng
      (buildDictSwap mh.data rs.rng 0).2).1 ∧
    tr.fwdSum = (forwardPass mh.proposal_vars (envOldOf tr) rs.rng
      (buildDictSwap mh.data rs.rng 0).2).2.1 ∧
    reversePass mh.proposal_vars (envNewOf tr) (envOldOf tr) = some tr.revSum ∧
    targetTerm mh tr.dict_swap tr.old_sample tr.new_sample (envNewOf tr)
      (envOldOf tr) = some tr.tgtSum ∧
    tr.ratio = tr.fwdSum - tr.revSum + tr.tgtSum ∧
    tr.accept = decide (rs.logFn (rs.rng (forwardPass mh.proposal_vars
      (envOldOf tr) rs.rng (buildDictSwap mh.data rs.rng 0).2).2.2) < tr.ratio) := by
  unfold buildTrace at h
  dsimp only at h
  split at h
  · exact absurd h (by simp)
  · rename_i rev hrev
    split at h
    · exact absurd h (by simp)
    · rename_i tgt htgt
      rw [Option.some_inj] at h
      subst h
      exact ⟨rfl, rfl, rfl, rfl, hrev, htgt, rfl, rfl⟩

theorem buildUpdate_inversion (mh : MetropolisHastings) (rs : RandomSource)
    (s s2 : GraphState) (h : buildUpdate mh rs s = some s2) :
    ∃ tr vars2, buildTrace mh rs s.t = some tr ∧
      applyWrites mh.latent_vars (committedSample tr) s.vars s.t = some vars2 ∧
      s2 = { vars := vars2, t := s.t,
             n_accept := s.n_accept + (if tr.accept then 1 else 0) } := by
  unfold buildUpdate at h
  split at h
  · exact absurd h (by simp)
  · rename_i tr htr
    split at h
    · exact absurd h (by simp)
    · rename_i vars2 hw
      rw [Option.some_inj] at h
      exact ⟨tr, vars2, htr, hw, h.symm⟩

/-! Helper lemmas about the values stored in dict_swap. -/

theorem buildDictSwap_lookup_val (data : List (DataKey × DataVal))
    (rng : Nat → V) :
    ∀ (i : Nat) (x : RV) (c : V), (DataKey.rv x, DataVal.val c) ∈ data →
      (swapIds data).Nodup →
      lookupV x.id (buildDictSwap data rng i).1 = some c := by
  induction data with
  | nil => intro i x c h _; simp at h
  | cons hd tl ih =>
    intro i x c h hnd
    obtain ⟨k, qv⟩ := hd
    rcases List.mem_cons.mp h with h1 | h1
    · cases h1
      simp [buildDictSwap, lookupV]
    · cases k with
      | rv y =>
        have hyx : y.id ≠ x.id := by
          simp only [swapIds, List.nodup_cons] at hnd
          intro hc
          exact hnd.1 (hc ▸ mem_swapIds tl x _ h1)
        have hnd2 : (swapIds tl).Nodup := by
          simp only [swapIds, List.nodup_cons] at hnd
          exact hnd.2
        cases qv with
        | rv qy =>
          simp only [buildDictSwap]
          rw [lookupV_cons_ne _ _ _ _ hyx]
          exact ih (i + 1) x c h1 hnd2
        | val cy =>
          simp only [buildDictSwap]
          rw [lookupV_cons_ne _ _ _ _ hyx]
          exact ih i x c h1 hnd2
      | tensor n =>
        have hnd2 : (swapIds tl).Nodup := by simpa [swapIds] using hnd
        simp only [buildDictSwap]
        exact ih i x c h1 hnd2

theorem buildDictSwap_lookup_rv (data : List (DataKey × DataVal))
    (rng : Nat → V) :
    ∀ (i : Nat) (x qx : RV), (DataKey.rv x, DataVal.rv qx) ∈ data →
      (swapIds data).Nodup →
      ∃ j, lookupV x.id (buildDictSwap data rng i).1 =
        some (qx.sample emptyEnv (rng j)) := by
  induction data with
  | nil => intro i x qx h _; simp at h
  | cons hd tl ih =>
    intro i x qx h hnd
    obtain ⟨k, qv⟩ := hd
    rcases List.mem_cons.mp h with h1 | h1
    · cases h1
      exact ⟨i, by simp [buildDictSwap, lookupV]⟩
    · cases k with
      | rv y =>
        have hyx : y.id ≠ x.id := by
          simp only [swapIds, List.nodup_cons] at hnd
          intro hc
          exact hnd.1 (hc ▸ mem_swapIds tl x _ h1)
        have hnd2 : (swapIds tl).Nodup := by
          simp only [swapIds, List.nodup_cons] at hnd
          exact hnd.2
        cases qv with
        | rv qy =>
          obtain ⟨j, hj⟩ := ih (i + 1) x qx h1 hnd2
          refine ⟨j, ?_⟩
          simp only [buildDictSwap]
          rw [lookupV_cons_ne _ _ _ _ hyx]
          exact hj
        | val cy =>
          obtain ⟨j, hj⟩ := ih i x qx h1 hnd2
          refine ⟨j, ?_⟩
          simp only [buildDictSwap]
          rw [lookupV_cons_ne _ _ _ _ hyx]
          exact hj
      | tensor n =>
        have hnd2 : (swapIds tl).Nodup := by simpa [swapIds] using hnd
        obtain ⟨j, hj⟩ := ih i x qx h1 hnd2
        exact ⟨j, by simpa [buildDictSwap] using hj⟩

/-! The claims. -/

/-- C7: per step, n_accept is incremented by exactly 1 on acceptance and by
exactly 0 otherwise, hence it is non decreasing and changes by at most 1
per step. -/
theorem c7_accept_counter (mh : MetropolisHastings) (rs : RandomSource)
    (s s2 : GraphState) (tr : StepTrace)
    (htr : buildTrace mh rs s.t = some tr)
    (hu : buildUpdate mh rs s = some s2) :
    s2.n_accept = s.n_accept + (if tr.accept then 1 else 0) ∧
    s.n_accept ≤ s2.n_accept ∧ s2.n_accept ≤ s.n_accept + 1 := by
  obtain ⟨tr2, vars2, htr2, hw, hs2⟩ := buildUpdate_inversion mh rs s s2 hu
  rw [htr, Option.some_inj] at htr2
  subst hs2
  rw [← htr2]
  refine ⟨rfl, ?_, ?_⟩ <;>
    rcases Bool.eq_false_or_eq_true tr.accept with ha | ha <;>
      simp [ha]

/-- C7 witness: the counter facts hold for one concrete step of the
example kernel. -/
theorem c7_witness :
    exGS2.n_accept = exGS.n_accept + (if exTr.accept then 1 else 0) ∧
    exGS.n_accept ≤ exGS2.n_accept ∧ exGS2.n_accept ≤ exGS.n_accept + 1 :=
  c7_accept_counter exMH exRS exGS exGS2 exTr (by decide) (by decide)

/-- C9: with exactly one latent variable, tf.cond returns a bare value,
the kernel normalizes it back into a one element list, and the committed
pairing coincides with the general selection formula that governs the
multi latent case. -/
theorem c9_singleton_normalization (accept : Bool) (z : Node) (a b : V)
    (ns os : List V) :
    tfCond accept [a] [b] = CondResult.single (if accept then a else b) ∧
    toListNormalize (tfCond accept [a] [b]) = [if accept then a else b] ∧
    sampleDict [z] (toListNormalize (tfCond accept [a] [b])) =
      [(z, if accept then a else b)] ∧
    toListNormalize (tfCond accept ns os) = (if accept then ns else os) := by
  refine ⟨?_, ?_, ?_, toListNormalize_tfCond accept ns os⟩ <;>
    cases accept <;> simp [tfCond, toListNormalize, sampleDict]

/-- C2: the accept decision is one boolean compared as log u < ratio, and
the committed value of every latent key is new_sample on acceptance and
old_sample on rejection, jointly for all keys, with the key paired to its
own value under the stable iteration order. -/
theorem c2_joint_commit (mh : MetropolisHastings) (rs : RandomSource)
    (t : Int) (tr : StepTrace)
    (hids : mh.proposal_vars.map (fun p => p.1.id) =
      mh.latent_vars.map (fun p => p.1.id))
    (htr : buildTrace mh rs t = some tr) :
    (∃ u, tr.accept = decide (rs.logFn u < tr.ratio)) ∧
    ∀ p ∈ mh.latent_vars,
      lookupV p.1.id (committedSample tr) =
        some (if tr.accept then lookupD tr.new_sample p.1.id
          else lookupD tr.old_sample p.1.id) := by
  obtain ⟨h1, h2, h3, h4, h5, h6, h7, h8⟩ := buildTrace_inversion mh rs t tr htr
  refine ⟨⟨_, h8⟩, ?_⟩
  intro p hp
  have hkn : tr.new_sample.map Prod.fst =
      mh.proposal_vars.map (fun q => q.1.id) := by
    rw [h3]
    exact forwardPass_fst _ _ _ _
  have hko : tr.old_sample.map Prod.fst =
      mh.latent_vars.map (fun q => q.1.id) := by
    rw [h1]
    exact oldSampleOf_fst _ _
  have hmem : p.1.id ∈ mh.latent_vars.map (fun q => q.1.id) :=
    List.mem_map_of_mem _ hp
  unfold committedSample sampleDict
  rw [toListNormalize_tfCond]
  rcases Bool.eq_false_or_eq_true tr.accept with ha | ha
  · have hs : (lookupV p.1.id tr.new_sample).isSome :=
      lookupV_isSome _ _ (by rw [hkn, hids]; exact hmem)
    simp only [ha, if_true]
    rw [zip_map_fst_snd]
    exact lookupV_eq_lookupD _ _ hs
  · have hkeys : tr.new_sample.map Prod.fst = tr.old_sample.map Prod.fst := by
      rw [hkn, hko, hids]
    have hs : (lookupV p.1.id tr.old_sample).isSome :=
      lookupV_isSome _ _ (by rw [hko]; exact hmem)
    simp only [ha, Bool.false_eq_true, if_false]
    rw [hkeys, zip_map_fst_snd]
    exact lookupV_eq_lookupD _ _ hs

/-- C2 witness: the committed value of latent 0 in one concrete step of
the example kernel follows the joint selection formula. -/
theorem c2_witness :
    lookupV exZ0.id (committedSample exTr) =
      some (if exTr.accept then lookupD exTr.new_sample exZ0.id
        else lookupD exTr.old_sample exZ0.id) :=
  (c2_joint_commit exMH exRS 0 exTr (by decide) (by decide)).2
    (exZ0, exEmp0) (List.mem_cons_self _ _)

/-- C4 counterexample: a kernel whose latent and proposal key sets differ
is constructed by MetropolisHastings.init without any rejection, so the
claimed construction time check does not exist. -/
theorem c4_counterexample :
    MetropolisHastings.init [(exZ0, exEmp0)] [(exZ9, exG0)] [] none =
      { latent_vars := [(exZ0, exEmp0)], proposal_vars := [(exZ9, exG0)],
        data := [], model_wrapper := none } ∧
    c4MH.latent_vars.map (fun p => p.1.id) ≠
      c4MH.proposal_vars.map (fun p => p.1.id) :=
  ⟨rfl, by decide⟩

/-- C4 amended: the mismatch is not rejected at construction; a proposal
key that is neither a latent key nor a substituted data key makes the
update construction itself fail with a lookup error, before any step
effect. -/
theorem c4_amended_build_fails (mh : MetropolisHastings) (rs : RandomSource)
    (t : Int) (z g : RV) (hz : (z, g) ∈ mh.proposal_vars)
    (h1 : z.id ∉ mh.latent_vars.map (fun p => p.1.id))
    (h2 : z.id ∉ swapIds mh.data) :
    buildTrace mh rs t = none := by
  unfold buildTrace
  dsimp only
  have hos : lookupV z.id (oldSampleOf mh.latent_vars t) = none := by
    apply lookupV_eq_none
    rw [oldSampleOf_fst]
    exact h1
  have hds : lookupV z.id (buildDictSwap mh.data rs.rng 0).1 = none := by
    apply lookupV_eq_none
    rw [buildDictSwap_fst]
    exact h2
  have henv : override (envOf (buildDictSwap mh.data rs.rng 0).1)
      (oldSampleOf mh.latent_vars t) z.id = none := by
    rw [override_of_not_mem _ _ _ hos]
    exact hds
  rw [reversePass_none mh.proposal_vars _ _ ⟨(z, g), hz, henv⟩]

/-- C4 witness: the concrete mismatched kernel fails when the update is
built. -/
theorem c4_amended_witness : buildTrace c4MH exRS 0 = none :=
  c4_amended_build_fails c4MH exRS 0 exZ9 exG0 (List.mem_cons_self _ _)
    (by decide) (by decide)

/-- C5 counterexample: a handle with three levels of indirection above a
unique root variable defeats the fixed two level resolution, although the
root buffer exists in the collection, so resolution does not succeed
regardless of the depth of indirection. -/
theorem c5_counterexample :
    rootVars c5Handle = [7] ∧
    (lookupV 7 c5GS.vars).isSome = true ∧
    resolveRoot c5Handle = some 12 ∧
    resolveVariable c5Handle c5GS.vars = none := by
  refine ⟨rfl, rfl, rfl, rfl⟩

/-- C5 amended: resolution walks exactly two levels of op inputs and then
looks the name up in the variable collection; whenever that resolution
fails for any latent variable, the whole step fails and no store write is
observed. -/
theorem c5_amended_no_write (mh : MetropolisHastings) (rs : RandomSource)
    (s : GraphState)
    (h : ∃ p ∈ mh.latent_vars, resolveVariable p.2.handle s.vars = none) :
    buildUpdate mh rs s = none := by
  unfold buildUpdate
  cases htr : buildTrace mh rs s.t with
  | none => rfl
  | some tr =>
    simp only []
    rw [applyWrites_none mh.latent_vars (committedSample tr) s.t s.vars h]

/-- C5 witness: the concrete kernel behind the deep handle produces no
update. -/
theorem c5_amended_witness : buildUpdate c5MH exRS c5GS = none :=
  c5_amended_no_write c5MH exRS c5GS
    ⟨(exZ0, c5Emp), List.mem_cons_self _ _, by decide⟩

theorem applyWrites_lookup_untouched (lv : List (RV × Empirical))
    (sample : List (Node × V)) (t : Int) :
    ∀ (vars vars2 : List (Node × List V)) (name : Node),
      applyWrites lv sample vars t = some vars2 →
      (∀ q ∈ lv, resolveRoot q.2.handle ≠ some name) →
      lookupV name vars2 = lookupV name vars := by
  induction lv with
  | nil =>
    intro vars vars2 name h _
    simp only [applyWrites, Option.some_inj] at h
    subst h
    rfl
  | cons hd tl ih =>
    intro vars vars2 name h hne
    obtain ⟨z, qz⟩ := hd
    cases hr : resolveRoot qz.handle with
    | none => simp [applyWrites, hr] at h
    | some n0 =>
      cases hb : lookupV n0 vars with
      | none => simp [applyWrites, hr, hb] at h
      | some buf =>
        cases hs : lookupV z.id sample with
        | none => simp [applyWrites, hr, hb, hs] at h
        | some v =>
          simp only [applyWrites, hr, hb, hs] at h
          have hn0 : n0 ≠ name := by
            intro hc
            exact hne (z, qz) (List.mem_cons_self _ _) (by rw [hr, hc])
          have hrec := ih (updateVar vars n0 (scatterUpdate buf t v)) vars2
            name h (fun q hq => hne q (List.mem_cons_of_mem _ hq))
          rw [hrec, updateVar_lookup_ne vars n0 name _ (Ne.symm hn0)]

theorem applyWrites_commit (lv : List (RV × Empirical))
    (sample : List (Node × V)) (t : Int) :
    ∀ (vars vars2 : List (Node × List V)),
      applyWrites lv sample vars t = some vars2 →
      (lv.map (fun p => resolveRoot p.2.handle)).Nodup →
      ∀ p ∈ lv, ∃ name v b1,
        resolveRoot p.2.handle = some name ∧
        lookupV p.1.id sample = some v ∧
        lookupV name vars = some b1 ∧
        lookupV name vars2 = some (b1.set t.toNat v) := by
  induction lv with
  | nil => intro vars vars2 h _ p hp; simp at hp
  | cons hd tl ih =>
    intro vars vars2 h hnd p hp
    obtain ⟨z, qz⟩ := hd
    simp only [List.map_cons, List.nodup_cons] at hnd
    cases hr : resolveRoot qz.handle with
    | none => simp [applyWrites, hr] at h
    | some n0 =>
      cases hb : lookupV n0 vars with
      | none => simp [applyWrites, hr, hb] at h
      | some buf =>
        cases hs : lookupV z.id sample with
        | none => simp [applyWrites, hr, hb, hs] at h
        | some v0 =>
          simp only [applyWrites, hr, hb, hs] at h
          have hn0notin :
              some n0 ∉ tl.map (fun q => resolveRoot q.2.handle) := by
            rw [← hr]
            exact hnd.1
          rcases List.mem_cons.mp hp with h1 | h1
          · subst h1
            refine ⟨n0, v0, buf, hr, hs, hb, ?_⟩
            have hv1 : lookupV n0 (updateVar vars n0 (scatterUpdate buf t v0))
                = some (scatterUpdate buf t v0) :=
              updateVar_lookup_self vars n0 _ (by simp [hb])
            have hne : ∀ q ∈ tl, resolveRoot q.2.handle ≠ some n0 := by
              intro q hq hc
              exact hn0notin (hc ▸ List.mem_map_of_mem _ hq)
            have huntouched := applyWrites_lookup_untouched tl sample t
              (updateVar vars n0 (scatterUpdate buf t v0)) vars2 n0 h hne
            rw [huntouched, hv1]
            rfl
          · obtain ⟨name, v, b1, hres, hsv, hb1, hfin⟩ :=
              ih (updateVar vars n0 (scatterUpdate buf t v0)) vars2 h hnd.2 p h1
            have hname : name ≠ n0 := by
              intro hc
              apply hn0notin
              have hm := List.mem_map_of_mem (fun q => resolveRoot q.2.handle) h1
              simp only at hm
              rw [hres, hc] at hm
              exact hm
            refine ⟨name, v, b1, hres, hsv, ?_, hfin⟩
            rw [← updateVar_lookup_ne vars n0 name (scatterUpdate buf t v0) hname]
            exact hb1

/-- C6: the old sample of every latent variable is read from its store at
index max(t - 1, 0), which at t = 0 is index 0 and is never negative nor
out of bounds for a buffer longer than t; every buffer the step changes is
changed only by a write at index t; and for every latent variable the
committed (accepted) value of committedSample is written at index t into
the buffer of its resolved root variable. -/
theorem c6_read_write_indices (mh : MetropolisHastings) (rs : RandomSource)
    (s : GraphState) (tr : StepTrace) (s2 : GraphState)
    (hnd : (mh.latent_vars.map (fun p => p.1.id)).Nodup)
    (hnames : (mh.latent_vars.map (fun p => resolveRoot p.2.handle)).Nodup)
    (ht : 0 ≤ s.t)
    (htr : buildTrace mh rs s.t = some tr)
    (hu : buildUpdate mh rs s = some s2) :
    (∀ p ∈ mh.latent_vars,
      lookupV p.1.id tr.old_sample = some (gather p.2.params (readIndex s.t))) ∧
    readIndex s.t = max (s.t - 1) 0 ∧
    (s.t = 0 → readIndex s.t = 0) ∧
    0 ≤ readIndex s.t ∧
    (∀ n : Nat, s.t < (n : Int) → (readIndex s.t).toNat < n) ∧
    (∀ name b2, lookupV name s2.vars = some b2 →
      ∃ b1, lookupV name s.vars = some b1 ∧
        (b2 = b1 ∨ ∃ v, b2 = b1.set s.t.toNat v)) ∧
    (∀ p ∈ mh.latent_vars, ∃ name v b1,
      resolveRoot p.2.handle = some name ∧
      lookupV p.1.id (committedSample tr) = some v ∧
      lookupV name s.vars = some b1 ∧
      lookupV name s2.vars = some (b1.set s.t.toNat v)) := by
  obtain ⟨h1, h2, h3, h4, h5, h6, h7, h8⟩ := buildTrace_inversion mh rs s.t tr htr
  obtain ⟨tr2, vars2, htr2, hw, hs2⟩ := buildUpdate_inversion mh rs s s2 hu
  rw [htr, Option.some_inj] at htr2
  subst hs2
  rw [← htr2] at hw
  refine ⟨?_, rfl, ?_, ?_, ?_, ?_, ?_⟩
  · intro p hp
    rw [h1]
    exact lookupV_oldSampleOf mh.latent_vars s.t p hnd hp
  · intro h0
    rw [h0]
    rfl
  · exact le_max_right _ _
  · intro n hn
    unfold readIndex
    omega
  · intro name b2 hb2
    have hb2v2 : lookupV name vars2 = some b2 := hb2
    rcases applyWrites_writes mh.latent_vars (committedSample tr) s.t s.vars
        vars2 hw name with hsame | ⟨b, v, hb, hb2v⟩
    · exact ⟨b2, by rw [← hsame]; exact hb2v2, Or.inl rfl⟩
    · refine ⟨b, hb, Or.inr ⟨v, ?_⟩⟩
      rw [hb2v] at hb2v2
      exact Option.some_inj.mp hb2v2.symm
  · intro p hp
    obtain ⟨name, v, b1, hres, hsv, hb1, hfin⟩ :=
      applyWrites_commit mh.latent_vars (committedSample tr) s.t s.vars vars2
        hw hnames p hp
    exact ⟨name, v, b1, hres, hsv, hb1, hfin⟩

/-- C6 witness: concrete read index facts for one step of the example
kernel at t = 0, and the concrete committed write: the committed value of
latent 0 is written at index 0 of its resolved root buffer. -/
theorem c6_witness :
    lookupV exZ0.id exTr.old_sample =
      some (gather exEmp0.params (readIndex exGS.t)) ∧
    readIndex exGS.t = max (exGS.t - 1) 0 ∧
    (exGS.t = 0 → readIndex exGS.t = 0) ∧
    (0 : Int) ≤ readIndex exGS.t ∧
    ∃ name v b1,
      resolveRoot exEmp0.handle = some name ∧
      lookupV exZ0.id (committedSample exTr) = some v ∧
      lookupV name exGS.vars = some b1 ∧
      lookupV name exGS2.vars = some (b1.set exGS.t.toNat v) :=
  have h := c6_read_write_indices exMH exRS exGS exTr exGS2 (by decide)
    (by decide) (by decide) (by decide) (by decide)
  ⟨h.1 (exZ0, exEmp0) (List.mem_cons_self _ _), h.2.1, h.2.2.1, h.2.2.2.1,
   h.2.2.2.2.2.2 (exZ0, exEmp0) (List.mem_cons_self _ _)⟩

/-- C8 counterexample: a data dict whose only key is not a RandomVariable
produces an empty dict_swap, so not every DataMap key receives an entry in
the substitution map. -/
theorem c8_counterexample :
    (buildDictSwap [(DataKey.tensor 99, DataVal.val 7)] exRS.rng 0).1 = [] ∧
    ([(DataKey.tensor 99, DataVal.val 7)] : List (DataKey × DataVal)).length
      = 1 :=
  ⟨rfl, rfl⟩

/-- C8 amended: dict_swap holds exactly the RandomVariable keys of the
data dict, each mapped to one auxiliary draw when the data value is a
RandomVariable and to the concrete data value otherwise; keys that are not
RandomVariables are omitted. -/
theorem c8_amended_swap_entries (data : List (DataKey × DataVal))
    (rng : Nat → V) (i : Nat) :
    ((buildDictSwap data rng i).1.map Prod.fst = swapIds data) ∧
    (∀ x c, (DataKey.rv x, DataVal.val c) ∈ data → (swapIds data).Nodup →
      lookupV x.id (buildDictSwap data rng i).1 = some c) ∧
    (∀ x qx, (DataKey.rv x, DataVal.rv qx) ∈ data → (swapIds data).Nodup →
      ∃ j, lookupV x.id (buildDictSwap data rng i).1 =
        some (qx.sample emptyEnv (rng j))) :=
  ⟨buildDictSwap_fst data rng i,
   fun x c h hnd => buildDictSwap_lookup_val data rng i x c h hnd,
   fun x qx h hnd => buildDictSwap_lookup_rv data rng i x qx h hnd⟩

/-- C8 witness: on the example data dict, the RandomVariable keys 5 and 6
both receive entries, key 6 the concrete value and key 5 an auxiliary
draw. -/
theorem c8_amended_witness :
    ((buildDictSwap exData exRS.rng 0).1.map Prod.fst = swapIds exData) ∧
    lookupV exX6.id (buildDictSwap exData exRS.rng 0).1 = some 2 ∧
    ∃ j, lookupV exX5.id (buildDictSwap exData exRS.rng 0).1 =
      some (exQX.sample emptyEnv (exRS.rng j)) :=
  have h := c8_amended_swap_entries exData exRS.rng 0
  ⟨h.1,
   h.2.1 exX6 2 (List.mem_cons_of_mem _ (List.mem_cons_self _ _)) (by decide),
   h.2.2 exX5 exQX (List.mem_cons_self _ _) (by decide)⟩

/-- C3: a data entry pairing RandomVariable x with RandomVariable qx
consumes exactly one auxiliary draw, at the rng index counting the pseudo
marginal entries before it; the stored value is that single draw, the rng
counter advances by exactly the number of pseudo marginal entries, and
both the dict_swap_new and the dict_swap_old environment expose exactly
the dict_swap value for x, so the same draw serves both halves of the
ratio. -/
theorem c3_aux_draw_once (mh : MetropolisHastings) (rs : RandomSource)
    (t : Int) (pre post : List (DataKey × DataVal)) (x qx : RV)
    (tr : StepTrace)
    (hdata : mh.data = pre ++ (DataKey.rv x, DataVal.rv qx) :: post)
    (hpre : x.id ∉ swapIds pre)
    (hlat : x.id ∉ mh.latent_vars.map (fun p => p.1.id))
    (hprop : x.id ∉ mh.proposal_vars.map (fun p => p.1.id))
    (htr : buildTrace mh rs t = some tr) :
    lookupV x.id tr.dict_swap =
      some (qx.sample emptyEnv (rs.rng (countAux pre))) ∧
    (buildDictSwap mh.data rs.rng 0).2 = countAux mh.data ∧
    envNewOf tr x.id = lookupV x.id tr.dict_swap ∧
    envOldOf tr x.id = lookupV x.id tr.dict_swap := by
  obtain ⟨h1, h2, h3, h4, h5, h6, h7, h8⟩ := buildTrace_inversion mh rs t tr htr
  have hswap : lookupV x.id tr.dict_swap =
      some (qx.sample emptyEnv (rs.rng (countAux pre))) := by
    rw [h2, hdata, buildDictSwap_append, lookupV_append]
    · simp [buildDictSwap, lookupV, Nat.zero_add]
    · rw [buildDictSwap_fst]
      exact hpre
  refine ⟨hswap, ?_, ?_, ?_⟩
  · rw [buildDictSwap_counter]
    simp
  · unfold envNewOf
    rw [override_of_not_mem]
    · rfl
    · apply lookupV_eq_none
      rw [h3, forwardPass_fst]
      exact hprop
  · unfold envOldOf
    rw [override_of_not_mem]
    · rfl
    · apply lookupV_eq_none
      rw [h1, oldSampleOf_fst]
      exact hlat

/-- C3 witness: the pseudo marginal entry of the example data dict draws
its auxiliary value once at rng index 0 and that value serves both
environments. -/
theorem c3_witness :
    lookupV exX5.id exTr.dict_swap =
      some (exQX.sample emptyEnv (exRS.rng (countAux []))) ∧
    (buildDictSwap exMH.data exRS.rng 0).2 = countAux exMH.data ∧
    envNewOf exTr exX5.id = lookupV exX5.id exTr.dict_swap ∧
    envOldOf exTr exX5.id = lookupV exX5.id exTr.dict_swap :=
  c3_aux_draw_once exMH exRS 0 []
    [(DataKey.rv exX6, DataVal.val 2), (DataKey.tensor 99, DataVal.val 7)]
    exX5 exQX exTr rfl (by decide) (by decide) (by decide) (by decide)

/-- C10 counterexample: in model wrapper mode, two runs of the same kernel
that differ only in the raw random draws, hence only in the auxiliary
pseudo marginal draw that reaches the proposal conditioning, produce
different target density terms, so the auxiliary draw does influence the
target side of the ratio through the proposed sample. -/
theorem c10_counterexample :
    Option.map StepTrace.tgtSum (buildTrace c10MH c10RS1 0) = some 1 ∧
    Option.map StepTrace.tgtSum (buildTrace c10MH c10RS2 0) = some 2 ∧
    c10RS1.logFn = c10RS2.logFn ∧
    c10RS1.rng 0 ≠ c10RS2.rng 0 :=
  ⟨rfl, rfl, rfl, by decide⟩

/-- C10 amended: in model wrapper mode, the target term is the wrapper
called on the original data dict together with the new_sample and the
old_sample assignments; dict_swap is not among its arguments, so the
auxiliary draw reaches the target term only through the proposed
samples. -/
theorem c10_amended_oracle_args (mh : MetropolisHastings) (rs : RandomSource)
    (t : Int) (mw : ModelWrapper) (tr : StepTrace)
    (hmw : mh.model_wrapper = some mw)
    (htr : buildTrace mh rs t = some tr) :
    tr.tgtSum = mw.logProb mh.data tr.new_sample
      - mw.logProb mh.data tr.old_sample := by
  obtain ⟨h1, h2, h3, h4, h5, h6, h7, h8⟩ := buildTrace_inversion mh rs t tr htr
  simp only [targetTerm, hmw, Option.some_inj] at h6
  exact h6.symm

/-- C10 witness: the wrapper mode target term of the concrete example
equals the wrapper difference on the original data dict. -/
theorem c10_amended_witness :
    c10Tr1.tgtSum = c10MW.logProb c10MH.data c10Tr1.new_sample
      - c10MW.logProb c10MH.data c10Tr1.old_sample :=
  c10_amended_oracle_args c10MH c10RS1 0 c10MW c10Tr1 rfl (by decide)

/-- C1: in structured mode with matching key sets, the accumulated scalar
ratio equals exactly the spec formula of section 4.2: plus the summed
forward proposal densities (conditioned on dict_swap_old) at new_sample,
minus the summed reverse proposal densities (conditioned on dict_swap_new)
at old_sample, plus the prior terms at new_sample minus the prior terms at
old_sample, plus the likelihood terms evaluated at the fixed observed
values from dict_swap. -/
theorem c1_ratio_sign_order (mh : MetropolisHastings) (rs : RandomSource)
    (t : Int) (tr : StepTrace)
    (hmw : mh.model_wrapper = none)
    (hids : mh.proposal_vars.map (fun p => p.1.id) =
      mh.latent_vars.map (fun p => p.1.id))
    (hnd : (mh.latent_vars.map (fun p => p.1.id)).Nodup)
    (htr : buildTrace mh rs t = some tr) :
    tr.ratio = specRatio mh tr.dict_swap tr.old_sample tr.new_sample
      (envNewOf tr) (envOldOf tr) := by
  obtain ⟨h1, h2, h3, h4, h5, h6, h7, h8⟩ := buildTrace_inversion mh rs t tr htr
  have hkn : tr.new_sample.map Prod.fst =
      mh.proposal_vars.map (fun q => q.1.id) := by
    rw [h3]
    exact forwardPass_fst _ _ _ _
  have hko : tr.old_sample.map Prod.fst =
      mh.latent_vars.map (fun q => q.1.id) := by
    rw [h1]
    exact oldSampleOf_fst _ _
  have hoP : ∀ p : RV × RV, p ∈ mh.proposal_vars →
      (lookupV p.1.id tr.old_sample).isSome := fun p hp =>
    lookupV_isSome _ _ (by rw [hko, ← hids]; exact List.mem_map_of_mem _ hp)
  have hoL : ∀ p : RV × Empirical, p ∈ mh.latent_vars →
      (lookupV p.1.id tr.old_sample).isSome := fun p hp =>
    lookupV_isSome _ _ (by rw [hko]; exact List.mem_map_of_mem _ hp)
  have hnL : ∀ p : RV × Empirical, p ∈ mh.latent_vars →
      (lookupV p.1.id tr.new_sample).isSome := fun p hp =>
    lookupV_isSome _ _ (by rw [hkn, hids]; exact List.mem_map_of_mem _ hp)
  have hEO : ∀ k : Node, (lookupV k tr.old_sample).isSome →
      envOldOf tr k = some (lookupD tr.old_sample k) := by
    intro k hk
    unfold envOldOf
    rw [override_of_mem _ _ _ hk]
    exact lookupV_eq_lookupD _ _ hk
  have hEN : ∀ k : Node, (lookupV k tr.new_sample).isSome →
      envNewOf tr k = some (lookupD tr.new_sample k) := by
    intro k hk
    unfold envNewOf
    rw [override_of_mem _ _ _ hk]
    exact lookupV_eq_lookupD _ _ hk
  have hndP : (mh.proposal_vars.map (fun p => p.1.id)).Nodup := by
    rw [hids]
    exact hnd
  have hF : tr.fwdSum = (mh.proposal_vars.map (fun p =>
      (p.2.logProb (envOldOf tr) (lookupD tr.new_sample p.1.id)).sum)).sum := by
    rw [h4, forwardPass_ratio _ _ _ _ hndP, ← h3]
  have hOs : ∀ p ∈ mh.proposal_vars, ((envOldOf tr) p.1.id).isSome := by
    intro p hp
    rw [hEO p.1.id (hoP p hp)]
    rfl
  have hR : tr.revSum = (mh.proposal_vars.map (fun p =>
      (p.2.logProb (envNewOf tr) (lookupD tr.old_sample p.1.id)).sum)).sum := by
    have heq := reversePass_eq mh.proposal_vars (envNewOf tr) (envOldOf tr) hOs
    rw [h5] at heq
    rw [Option.some_inj.mp heq]
    apply congrArg List.sum
    apply List.map_congr_left
    intro p hp
    rw [hEO p.1.id (hoP p hp)]
    rfl
  have hNsL : ∀ p ∈ mh.latent_vars, ((envNewOf tr) p.1.id).isSome := by
    intro p hp
    rw [hEN p.1.id (hnL p hp)]
    rfl
  have hOsL : ∀ p ∈ mh.latent_vars, ((envOldOf tr) p.1.id).isSome := by
    intro p hp
    rw [hEO p.1.id (hoL p hp)]
    rfl
  have hswapKeys : tr.dict_swap.map Prod.fst = swapIds mh.data := by
    rw [h2]
    exact buildDictSwap_fst _ _ _
  have hLik : ∀ (x : RV) (qv : DataVal), (DataKey.rv x, qv) ∈ mh.data →
      (lookupV x.id tr.dict_swap).isSome := fun x qv hx =>
    lookupV_isSome _ _ (by rw [hswapKeys]; exact mem_swapIds _ _ _ hx)
  have hP := priorPass_eq mh.latent_vars (envNewOf tr) (envOldOf tr) hNsL hOsL
  have hL := likelihoodPass_eq mh.data tr.dict_swap (envNewOf tr)
    (envOldOf tr) hLik
  have hT : tr.tgtSum = (mh.latent_vars.map (fun p =>
      (p.1.logProb (envNewOf tr) (lookupD tr.new_sample p.1.id)).sum
        - (p.1.logProb (envOldOf tr) (lookupD tr.old_sample p.1.id)).sum)).sum
      + specLikTerms mh.data tr.dict_swap (envNewOf tr) (envOldOf tr) := by
    simp only [targetTerm, hmw, hP, hL, Option.some_inj] at h6
    rw [← h6]
    congr 1
    apply congrArg List.sum
    apply List.map_congr_left
    intro p hp
    rw [hEN p.1.id (hnL p hp), hEO p.1.id (hoL p hp)]
    rfl
  rw [h7, hF, hR, hT]
  unfold specRatio
  ring

/-- C1 witness: the ratio of one concrete step of the example kernel
equals the spec formula evaluated on the same trace. -/
theorem c1_witness :
    exTr.ratio = specRatio exMH exTr.dict_swap exTr.old_sample
      exTr.new_sample (envNewOf exTr) (envOldOf exTr) :=
  c1_ratio_sign_order exMH exRS 0 exTr rfl (by decide) (by decide) (by decide)

end EdwardMH
